import Mathlib

/-!
# Verification of the Fleece core substrate

A shallow embedding of the slice substrate (`src/API/fleece/slice.hh`), the
varint codec (`src/Fleece/Support/varint.hh`) and the mutable dictionary
overlay (`src/Fleece/Mutable/MDict.hh`), together with proofs of the
spec-level claims about them.

Byte strings (C++ `slice` contents) are modelled as `List Nat`, machine
counters as `Nat` with explicit reduction modulo `2 ^ 32` / `2 ^ 64` where
the C++ type wraps.
-/

namespace Fleece

/-! ## Byte-slice comparison (`pure_slice::compare`, `pure_slice::operator==`)

`src/API/fleece/slice.hh` lines 522-534 and 143-145.  `memcmp` is the libc
function; per the C standard its result's *sign* is determined by the first
pair of differing bytes (compared as `unsigned char`), so it is modelled by
a sign-valued function.  `memcmpSign a b` compares byte-by-byte and stops at
the end of the shorter list, which coincides with the source's calls
`memcmp(buf, b.buf, min(size, b.size))`. -/

def memcmpSign : List Nat → List Nat → Int
  | [], _ => 0
  | _, [] => 0
  | a :: as, b :: bs => if a < b then -1 else if b < a then 1 else memcmpSign as bs

/-- Model of `pure_slice::compare` (slice.hh:522-534): three-way lexicographic compare.
If the sizes are equal, a single `memcmp` of the whole contents; otherwise
`memcmp` of the common prefix, falling back to `-1` (this size smaller) or
`1` (this size larger) on a tie. -/
def sliceCompare (a b : List Nat) : Int :=
  if a.length = b.length then
    memcmpSign a b
  else if a.length < b.length then
    let result := memcmpSign a b
    if result ≠ 0 then result else -1
  else
    let result := memcmpSign a b
    if result ≠ 0 then result else 1

/-- Model of `pure_slice::operator==` (slice.hh:143-144): `size==s.size && memcmp(buf, s.buf, size) == 0`. -/
def sliceBeq (a b : List Nat) : Bool :=
  a.length = b.length && memcmpSign a b = 0

/-- Predicate: `a` is a strict byte-prefix of `b`. -/
def IsProperPref (a b : List Nat) : Prop :=
  a.length < b.length ∧ a = b.take a.length

/-- The first byte position at which `a` and `b` differ exists (within both),
and there `a`'s byte is the smaller one. -/
def FirstDiffLt (a b : List Nat) : Prop :=
  ∃ i, ∃ (ha : i < a.length) (hb : i < b.length),
    a.take i = b.take i ∧ a.get ⟨i, ha⟩ < b.get ⟨i, hb⟩

theorem firstDiffLt_nil_left (b : List Nat) : ¬ FirstDiffLt [] b := by
  rintro ⟨i, ha, -, -⟩
  exact absurd ha (by simp)

theorem firstDiffLt_nil_right (a : List Nat) : ¬ FirstDiffLt a [] := by
  rintro ⟨i, -, hb, -⟩
  exact absurd hb (by simp)

theorem firstDiffLt_cons {a b : Nat} {as bs : List Nat} :
    FirstDiffLt (a :: as) (b :: bs) ↔ a < b ∨ (a = b ∧ FirstDiffLt as bs) := by
  constructor
  · rintro ⟨i, ha, hb, htake, hlt⟩
    match i with
    | 0 => exact Or.inl hlt
    | j + 1 =>
      simp only [List.take_succ_cons, List.cons.injEq] at htake
      refine Or.inr ⟨htake.1, ⟨j, Nat.lt_of_succ_lt_succ ha, Nat.lt_of_succ_lt_succ hb,
        htake.2, hlt⟩⟩
  · rintro (hlt | ⟨rfl, i, ha, hb, htake, hlt⟩)
    · exact ⟨0, by simp, by simp, by simp, hlt⟩
    · exact ⟨i + 1, Nat.succ_lt_succ ha, Nat.succ_lt_succ hb, by
        simpa [List.take_succ_cons] using htake, hlt⟩

theorem memcmpSign_neg_iff : ∀ a b : List Nat, memcmpSign a b < 0 ↔ FirstDiffLt a b
  | [], b => by
    simp only [memcmpSign]
    exact iff_of_false (by norm_num) (firstDiffLt_nil_left b)
  | a :: as, [] => by
    simp only [memcmpSign]
    exact iff_of_false (by norm_num) (firstDiffLt_nil_right _)
  | a :: as, b :: bs => by
    rw [firstDiffLt_cons]
    simp only [memcmpSign]
    rcases Nat.lt_trichotomy a b with h | h | h
    · simp [h, Nat.lt_asymm h]
    · subst h
      simp [lt_irrefl, memcmpSign_neg_iff as bs]
    · simp only [if_neg (Nat.lt_asymm h), if_pos h]
      exact iff_of_false (by norm_num)
        (by rintro (h' | ⟨rfl, -⟩) <;> omega)

theorem memcmpSign_zero_iff : ∀ a b : List Nat,
    memcmpSign a b = 0 ↔ a.take b.length = b.take a.length
  | [], b => by simp [memcmpSign]
  | a :: as, [] => by simp [memcmpSign]
  | a :: as, b :: bs => by
    simp only [memcmpSign, List.length_cons, List.take_succ_cons, List.cons.injEq]
    rcases Nat.lt_trichotomy a b with h | h | h
    · simp [h, Nat.ne_of_lt h]
    · subst h
      simp [lt_irrefl, memcmpSign_zero_iff as bs]
    · simp only [if_neg (Nat.lt_asymm h), if_pos h]
      exact iff_of_false (by norm_num) (by rintro ⟨rfl, -⟩; omega)

theorem memcmpSign_swap : ∀ a b : List Nat, memcmpSign b a = -memcmpSign a b
  | [], [] => by simp [memcmpSign]
  | [], _ :: _ => by simp [memcmpSign]
  | _ :: _, [] => by simp [memcmpSign]
  | a :: as, b :: bs => by
    simp only [memcmpSign]
    rcases Nat.lt_trichotomy a b with h | h | h
    · simp [h, Nat.lt_asymm h]
    · subst h
      simp [lt_irrefl, memcmpSign_swap as bs]
    · simp [h, Nat.lt_asymm h]

theorem memcmpSign_pos_iff (a b : List Nat) : 0 < memcmpSign a b ↔ FirstDiffLt b a := by
  rw [← memcmpSign_neg_iff b a, memcmpSign_swap a b]
  omega

theorem memcmpSign_self : ∀ a : List Nat, memcmpSign a a = 0
  | [] => rfl
  | a :: as => by simp [memcmpSign, memcmpSign_self as]

/-- Helper: if the lengths are equal, `memcmpSign a b = 0` iff the lists are equal. -/
theorem memcmpSign_zero_iff_of_length_eq {a b : List Nat} (h : a.length = b.length) :
    memcmpSign a b = 0 ↔ a = b := by
  rw [memcmpSign_zero_iff]
  rw [← h, List.take_length, h, List.take_length]

/-- C2: `pure_slice::compare` implements lexicographic byte order with the
strict-prefix tie-break: it returns 0 iff the slices are byte-equal, a
negative value iff this slice is a strict prefix of the other or its first
differing byte is smaller, a positive value in the symmetric cases, and
`operator==` holds iff sizes and bytes are equal. -/
theorem compare_lex_spec (a b : List Nat) :
    (sliceCompare a b = 0 ↔ a = b) ∧
    (sliceCompare a b < 0 ↔ IsProperPref a b ∨ FirstDiffLt a b) ∧
    (0 < sliceCompare a b ↔ IsProperPref b a ∨ FirstDiffLt b a) ∧
    (sliceBeq a b = true ↔ a = b) := by
  have hbeq : sliceBeq a b = true ↔ a = b := by
    simp only [sliceBeq, Bool.and_eq_true, decide_eq_true_eq]
    constructor
    · rintro ⟨hl, hm⟩
      exact (memcmpSign_zero_iff_of_length_eq hl).mp hm
    · rintro rfl
      exact ⟨rfl, memcmpSign_self a⟩
  unfold sliceCompare
  rcases Nat.lt_trichotomy a.length b.length with hlen | hlen | hlen
  · rw [if_neg (Nat.ne_of_lt hlen), if_pos hlen]
    have hnpref : ¬ IsProperPref b a := fun h => absurd h.1 (by omega)
    have hpref : memcmpSign a b = 0 ↔ IsProperPref a b := by
      rw [memcmpSign_zero_iff]
      unfold IsProperPref
      rw [List.take_of_length_le (Nat.le_of_lt hlen)]
      constructor
      · intro h; exact ⟨hlen, h⟩
      · intro h; exact h.2
    constructor
    · constructor
      · intro h
        by_cases hz : memcmpSign a b ≠ 0 <;> simp [hz] at h
      · rintro rfl; omega
    constructor
    · by_cases hz : memcmpSign a b = 0
      · simp only [hz, ne_eq, not_true_eq_false, if_false]
        constructor
        · intro _; exact Or.inl (hpref.mp hz)
        · intro _; norm_num
      · simp only [ne_eq, hz, not_false_eq_true, if_true]
        rw [memcmpSign_neg_iff]
        constructor
        · exact fun h => Or.inr h
        · rintro (h | h)
          · exact absurd (hpref.mpr h) hz
          · exact h
    constructor
    · by_cases hz : memcmpSign a b = 0
      · simp only [hz, ne_eq, not_true_eq_false, if_false]
        constructor
        · intro h; norm_num at h
        · rintro (h | h)
          · exact absurd h hnpref
          · rw [← memcmpSign_pos_iff] at h; omega
      · simp only [ne_eq, hz, not_false_eq_true, if_true]
        rw [memcmpSign_pos_iff]
        constructor
        · exact fun h => Or.inr h
        · rintro (h | h)
          · exact absurd h hnpref
          · exact h
    · exact hbeq
  · rw [if_pos hlen]
    have hnp₁ : ¬ IsProperPref a b := fun h => absurd h.1 (by omega)
    have hnp₂ : ¬ IsProperPref b a := fun h => absurd h.1 (by omega)
    refine ⟨memcmpSign_zero_iff_of_length_eq hlen, ?_, ?_, hbeq⟩
    · rw [memcmpSign_neg_iff]
      constructor
      · exact fun h => Or.inr h
      · rintro (h | h)
        · exact absurd h hnp₁
        · exact h
    · rw [memcmpSign_pos_iff]
      constructor
      · exact fun h => Or.inr h
      · rintro (h | h)
        · exact absurd h hnp₂
        · exact h
  · rw [if_neg (by omega : ¬ a.length = b.length), if_neg (by omega : ¬ a.length < b.length)]
    have hnpref : ¬ IsProperPref a b := fun h => absurd h.1 (by omega)
    have hpref : memcmpSign a b = 0 ↔ IsProperPref b a := by
      rw [memcmpSign_zero_iff]
      unfold IsProperPref
      rw [List.take_of_length_le (Nat.le_of_lt hlen)]
      constructor
      · intro h; exact ⟨hlen, h.symm⟩
      · intro h; exact h.2.symm
    constructor
    · constructor
      · intro h
        by_cases hz : memcmpSign a b ≠ 0 <;> simp [hz] at h
      · rintro rfl; omega
    constructor
    · by_cases hz : memcmpSign a b = 0
      · simp only [hz, ne_eq, not_true_eq_false, if_false]
        constructor
        · intro h; norm_num at h
        · rintro (h | h)
          · exact absurd h hnpref
          · rw [← memcmpSign_neg_iff] at h; omega
      · simp only [ne_eq, hz, not_false_eq_true, if_true]
        rw [memcmpSign_neg_iff]
        constructor
        · exact fun h => Or.inr h
        · rintro (h | h)
          · exact absurd h hnpref
          · exact h
    constructor
    · by_cases hz : memcmpSign a b = 0
      · simp only [hz, ne_eq, not_true_eq_false, if_false]
        constructor
        · intro _; exact Or.inl (hpref.mp hz)
        · intro _; norm_num
      · simp only [ne_eq, hz, not_false_eq_true, if_true]
        rw [memcmpSign_pos_iff]
        constructor
        · exact fun h => Or.inr h
        · rintro (h | h)
          · exact absurd (hpref.mpr h) hz
          · exact h
    · exact hbeq

/-! ## Unsigned varint decoding (`src/Fleece/Support/varint.hh`)

The public inline fast paths `GetUVarInt` / `GetUVarInt32` (varint.hh:57-83)
are in the source.  The slow paths `_GetUVarInt` / `_GetUVarInt32` are only
declared there (varint.hh:50-51); their bodies live in `varint.cc`, which is
not part of this repository snapshot, so they are modelled from the spec.

The C out-parameter `uint64_t *n` is modelled by passing the current value of
`*n` in and returning the pair `(bytesRead, *n after the call)`, which makes
"does not modify the output" expressible. -/

/-- One 7-bit-group decoding sweep over at most the given byte list:
accumulate `(byte & 0x7F) << shift` until a byte with clear high bit is
found; `none` if the list ends first. Returns `(bytesRead, value)`. -/
def uvarintGo : List Nat → Nat → Nat → Nat → Option (Nat × Nat)
  | [], _, _, _ => none
  | b :: rest, shift, acc, cnt =>
    if b < 0x80 then some (cnt + 1, acc + b <<< shift)
    else uvarintGo rest (shift + 7) (acc + (b % 0x80) <<< shift) (cnt + 1)

/-- Modelled from the spec: `_GetUVarInt` (implemented in `varint.cc`, which is
missing from this snapshot).  Spec 4.B: "read bytes setting
`*n |= (byte & 0x7F) << shift`; stop when high bit clear.  Fail if more than
10 bytes consumed or buffer exhausted mid-number - returns 0 bytes-read", and
spec 7: a decode failure "returns zero bytes-read and does not modify the
output".  The accumulated value is truncated to the `uint64_t` result width. -/
def _GetUVarInt (buf : List Nat) (n : Nat) : Nat × Nat :=
  match uvarintGo (buf.take 10) 0 0 0 with
  | none => (0, n)
  | some (cnt, v) => (cnt, v % 2 ^ 64)

/-- Modelled from the spec: `_GetUVarInt32`, as `_GetUVarInt` but for a
`uint32_t` output, whose maximum encoded length is `kMaxVarintLen32 = 5`. -/
def _GetUVarInt32 (buf : List Nat) (n : Nat) : Nat × Nat :=
  match uvarintGo (buf.take 5) 0 0 0 with
  | none => (0, n)
  | some (cnt, v) => (cnt, v % 2 ^ 32)

/-- Model of `GetUVarInt` (varint.hh:57-67): empty buffer fails with 0 bytes read;
a first byte `< 0x80` is the whole value with 1 byte read; otherwise defer
to `_GetUVarInt`. -/
def GetUVarInt (buf : List Nat) (n : Nat) : Nat × Nat :=
  match buf with
  | [] => (0, n)
  | byte :: _ => if byte < 0x80 then (1, byte) else _GetUVarInt buf n

/-- Model of `GetUVarInt32` (varint.hh:73-83): same shape as `GetUVarInt` with the
32-bit slow path. -/
def GetUVarInt32 (buf : List Nat) (n : Nat) : Nat × Nat :=
  match buf with
  | [] => (0, n)
  | byte :: _ => if byte < 0x80 then (1, byte) else _GetUVarInt32 buf n

/-- C5: on any buffer whose first byte is below `0x80`, `GetUVarInt` and
`GetUVarInt32` store exactly that byte into `*n` and return 1, for any prior
contents of `*n`. -/
theorem getUVarInt_fast_path (b : Nat) (rest : List Nat) (n n' : Nat) (h : b < 0x80) :
    GetUVarInt (b :: rest) n = (1, b) ∧ GetUVarInt32 (b :: rest) n' = (1, b) := by
  constructor
  · simp [GetUVarInt, h]
  · simp [GetUVarInt32, h]

/-- C5 witness: `GetUVarInt [0x7F, 0x01] 42 = (1, 0x7F)` and likewise for the
32-bit variant, at a concrete non-zero prior `*n`. -/
theorem getUVarInt_fast_path_witness :
    (0x7F : Nat) < 0x80 ∧
      GetUVarInt [0x7F, 0x01] 42 = (1, 0x7F) ∧ GetUVarInt32 [0x7F, 0x01] 7 = (1, 0x7F) :=
  ⟨by decide, getUVarInt_fast_path 0x7F [0x01] 42 7 (by decide)⟩

theorem uvarintGo_none_of_high (l : List Nat) (hhigh : ∀ b ∈ l, 0x80 ≤ b) :
    ∀ shift acc cnt, uvarintGo l shift acc cnt = none := by
  induction l with
  | nil => intro shift acc cnt; rfl
  | cons b rest ih =>
    intro shift acc cnt
    have hb : ¬ b < 0x80 := not_lt.mpr (hhigh b (List.mem_cons_self b rest))
    simp only [uvarintGo, if_neg hb]
    exact ih (fun x hx => hhigh x (List.mem_cons_of_mem b hx)) _ _ _

/-- C6: whenever decoding fails - the buffer is empty, or it runs out before
a terminating byte (high bit clear), or no terminator occurs within the
maximum length (10 bytes, resp. 5 for the 32-bit variant) - `GetUVarInt` and
`GetUVarInt32` return 0 bytes read and leave `*n` unchanged.  The failure
condition is phrased as: every byte within reach of the decoder (the first
`min (length) (max)` bytes) has its high bit set, which covers exactly the
empty, exhausted-mid-number and over-long cases. -/
theorem getUVarInt_failure (buf : List Nat) (n n' : Nat)
    (h64 : ∀ i, (hi : i < buf.length) → i < 10 → 0x80 ≤ buf.get ⟨i, hi⟩)
    (h32 : ∀ i, (hi : i < buf.length) → i < 5 → 0x80 ≤ buf.get ⟨i, hi⟩) :
    GetUVarInt buf n = (0, n) ∧ GetUVarInt32 buf n' = (0, n') := by
  have htake : ∀ m : Nat, (∀ i, (hi : i < buf.length) → i < m → 0x80 ≤ buf.get ⟨i, hi⟩) →
      ∀ b ∈ buf.take m, 0x80 ≤ b := by
    intro m hm b hb
    rw [List.mem_take_iff_getElem] at hb
    obtain ⟨i, hi, rfl⟩ := hb
    have hi₁ : i < buf.length := (lt_min_iff.mp hi).2
    exact le_of_le_of_eq (hm i hi₁ (lt_min_iff.mp hi).1) (by simp [List.get_eq_getElem])
  match hb : buf with
  | [] => exact ⟨rfl, rfl⟩
  | byte :: rest =>
    have hhead : 0x80 ≤ byte := h64 0 (by simp) (by norm_num)
    have hnb : ¬ byte < 0x80 := not_lt.mpr hhead
    constructor
    · simp only [GetUVarInt, if_neg hnb, _GetUVarInt,
        uvarintGo_none_of_high _ (htake 10 h64) 0 0 0]
    · simp only [GetUVarInt32, if_neg hnb, _GetUVarInt32,
        uvarintGo_none_of_high _ (htake 5 h32) 0 0 0]

/-- C6 witness: the two-byte all-high buffer `[0x80, 0x80]` fails both
decoders, leaving concrete prior values of `*n` untouched. -/
theorem getUVarInt_failure_witness :
    GetUVarInt [0x80, 0x80] 99 = (0, 99) ∧ GetUVarInt32 [0x80, 0x80] 3 = (0, 3) :=
  getUVarInt_failure [0x80, 0x80] 99 3 (by decide) (by decide)

/-! ## `pure_slice::toCString` (slice.hh:498-503)

The destination is a caller buffer of `bufSize` bytes.  The call is modelled
by the list of byte writes it performs, each as an `(index, byte)` pair into
the destination, plus the returned `bool`.  `bufSize - 1` is `size_t`
arithmetic, so it is taken modulo `2 ^ 64`. -/

/-- Model of `pure_slice::toCString`: `n = min(size, bufSize-1)`, `memcpy(str, buf, n)`
(writes `slice[i]` at index `i` for `i < n`), `str[n] = 0`, `return n == size`. -/
def toCString (s : List Nat) (bufSize : Nat) : List (Nat × Nat) × Bool :=
  let n := min s.length ((bufSize + (2 ^ 64 - 1)) % 2 ^ 64)
  ((List.range n).zip (s.take n) ++ [(n, 0)], n == s.length)

/-- C9, failing input: with `bufSize = 0` the `size_t` expression `bufSize-1`
wraps to `2^64 - 1`, so `toCString` writes the whole slice plus a NUL
terminator even though the destination holds 0 bytes.  Evaluated here: for
the empty slice it writes the single byte 0 at index 0, and for the one-byte
slice `[0x41]` it writes two bytes at indices 0 and 1 and returns true -
all of these writes land outside a 0-byte buffer, contradicting the claim
that at most `bufSize` bytes are written (and the source comment "will not
overflow the buffer"). -/
theorem toCString_bufSize_zero_overflow :
    (toCString [] 0).1 = [(0, 0)] ∧
      toCString [0x41] 0 = ([(0, 0x41), (1, 0)], true) := by
  constructor
  · decide
  · decide

/-! ## `alloc_slice::resize` (slice.hh:729-741)

An `alloc_slice` either is null or designates a ref-counted heap buffer.  The
model tracks the buffer's identity (its address, as an allocation counter
`nextId` handing out fresh ids) and its bytes, plus a log of the buffer ids
released by the operation, which is what lets "allocates a *new* buffer /
never reallocates in place" and "releases the old buffer" be stated.
`FLSliceResult_New` and `_FLBuf_Release` live outside this snapshot
(`FLSlice.h`/`.cc`); per spec 4.A allocation produces a zero-initialized
buffer of the requested size and never fails (failure terminates), and
release drops one reference, recorded here in the log. -/

structure HeapBuf where
  id : Nat
  data : List Nat
deriving DecidableEq

structure AllocSliceState where
  slice : Option HeapBuf
  nextId : Nat
  released : List Nat
deriving DecidableEq

/-- The `size` member: null slices have size 0 (`pure_slice` invariant). -/
def sliceSize (st : AllocSliceState) : Nat :=
  match st.slice with
  | none => 0
  | some b => b.data.length

/-- The bytes currently visible through the slice. -/
def sliceData (st : AllocSliceState) : List Nat :=
  match st.slice with
  | none => []
  | some b => b.data

/-- Allocation-counter discipline: the held buffer was handed out by the
allocator, i.e. its id is below `nextId`. -/
def allocWF (st : AllocSliceState) : Bool :=
  match st.slice with
  | none => true
  | some b => b.id < st.nextId

/-- Model of `alloc_slice::resize(newSize)` (slice.hh:729-741): if `newSize == size`,
return; else if `buf == nullptr`, `reset(newSize)` (a fresh zero-filled
allocation); else allocate a fresh buffer of `newSize` bytes, `memcpy` the
first `min(size, newSize)` bytes of the old contents over its zeroed bytes,
and move-assign it into place, which releases the old buffer. -/
def resize (st : AllocSliceState) (newSize : Nat) : AllocSliceState :=
  if newSize = sliceSize st then
    st
  else
    match st.slice with
    | none =>
      { slice := some ⟨st.nextId, List.replicate newSize 0⟩
        nextId := st.nextId + 1
        released := st.released }
    | some b =>
      { slice := some ⟨st.nextId,
          b.data.take (min b.data.length newSize)
            ++ List.replicate (newSize - min b.data.length newSize) 0⟩
        nextId := st.nextId + 1
        released := st.released ++ [b.id] }

/-- C7: `resize(n)` is a no-op when `n` equals the current size; on a null
slice it allocates a fresh buffer of size `n`; otherwise it allocates a new
buffer of size `n` (never the old one - the ids differ), copies the first
`min(oldSize, n)` bytes and releases the old buffer; and in every case the
first `min(oldSize, n)` bytes afterwards equal the bytes before the call. -/
theorem resize_spec (st : AllocSliceState) (n : Nat) (hwf : allocWF st = true) :
    (n = sliceSize st → resize st n = st) ∧
    (st.slice = none → n ≠ sliceSize st →
      resize st n = { slice := some ⟨st.nextId, List.replicate n 0⟩
                      nextId := st.nextId + 1
                      released := st.released }) ∧
    (∀ b, st.slice = some b → n ≠ sliceSize st →
      (resize st n).slice = some ⟨st.nextId,
          b.data.take (min b.data.length n) ++ List.replicate (n - min b.data.length n) 0⟩ ∧
      sliceSize (resize st n) = n ∧
      st.nextId ≠ b.id ∧
      (resize st n).released = st.released ++ [b.id]) ∧
    (sliceData (resize st n)).take (min (sliceSize st) n)
      = (sliceData st).take (min (sliceSize st) n) := by
  refine ⟨fun h => by simp [resize, h], ?_, ?_, ?_⟩
  · intro hnone hne
    simp [resize, if_neg (Ne.symm (fun h => hne h.symm)), hnone]
  · intro b hb hne
    have hid : b.id < st.nextId := by
      simpa [allocWF, hb] using hwf
    have hres : resize st n = ⟨some ⟨st.nextId,
        b.data.take (min b.data.length n) ++ List.replicate (n - min b.data.length n) 0⟩,
        st.nextId + 1, st.released ++ [b.id]⟩ := by
      simp [resize, if_neg hne, hb]
    refine ⟨by rw [hres], ?_, by omega, by rw [hres]⟩
    rw [hres]
    simp only [sliceSize]
    rw [List.length_append, List.length_take, List.length_replicate]
    omega
  · by_cases h : n = sliceSize st
    · rw [(by simp [resize, h] : resize st n = st)]
    · match hb : st.slice with
      | none =>
        simp [sliceSize, hb]
      | some b =>
        have hres : resize st n = ⟨some ⟨st.nextId,
            b.data.take (min b.data.length n) ++ List.replicate (n - min b.data.length n) 0⟩,
            st.nextId + 1, st.released ++ [b.id]⟩ := by
          simp [resize, if_neg h, hb]
        rw [hres]
        simp only [sliceData, sliceSize, hb]
        have hlen : (b.data.take (min b.data.length n)).length = min b.data.length n := by
          simp [List.length_take, Nat.min_assoc, Nat.min_self]
        rw [List.take_append_of_le_length (le_of_eq hlen.symm), List.take_take, Nat.min_self]

/-- C7 witness: a concrete three-byte buffer resized to two bytes keeps its
first two bytes, moves to a fresh buffer id and releases the old id. -/
theorem resize_spec_witness :
    allocWF ⟨some ⟨0, [1, 2, 3]⟩, 1, []⟩ = true ∧
      (resize ⟨some ⟨0, [1, 2, 3]⟩, 1, []⟩ 2).slice = some ⟨1, [1, 2]⟩ ∧
      (1 : Nat) ≠ 0 ∧
      (resize ⟨some ⟨0, [1, 2, 3]⟩, 1, []⟩ 2).released = [0] := by
  have h := (resize_spec ⟨some ⟨0, [1, 2, 3]⟩, 1, []⟩ 2 (by decide)).2.2.1
    ⟨0, [1, 2, 3]⟩ rfl (by decide)
  exact ⟨by decide, by simpa using h.1, h.2.2.1, by simpa using h.2.2.2⟩

/-! ## `MDict` (src/Fleece/Mutable/MDict.hh)

The mutable dictionary overlay.  The template parameter `Native` never
influences `MDict`'s own control flow (only `MValue<Native>`'s emptiness
does), so the model is parameterized by a key type `K` (byte-string slices)
and a value payload type `V`.  An `MValue` is `Option V`: `none` is the
empty/tombstone state (`isEmpty()`), `some v` a non-empty value.

`std::unordered_map<slice, MValue, sliceHash>` compares keys by slice byte
equality; it is modelled as an association list with first-match lookup
(iteration order of the hash map is unspecified, the list order stands in
for it).  `uint32_t _count` wraps modulo `2 ^ 32`.

The immutable `Dict` reader and `MCollection` are external to this snapshot
(`MCollection.hh`, `Dict.hh` are not under `src/`), so they are modelled
from the spec (sections 4.D, 6 and the glossary). -/

/-- First-match lookup in an association list (models
`std::unordered_map::find`, keyed by byte equality of slices). -/
def lookupList {α β : Type} [DecidableEq α] : List (α × β) → α → Option β
  | [], _ => none
  | e :: rest, k => if e.1 = k then some e.2 else lookupList rest k

/-- Overwrite the value of the first entry with the given key (models
`i->second = val` through a found iterator). -/
def updateList {α β : Type} [DecidableEq α] : List (α × β) → α → β → List (α × β)
  | [], _, _ => []
  | e :: rest, k, v => if e.1 = k then (k, v) :: rest else e :: updateList rest k v

/-- Modelled from the spec: the immutable encoded `Dict` reader consumed by
`MDict` (spec 6: `get(key [, sharedKeys]) -> value*`, `count() -> u32`, and
an iterator producing `(keyString, value)` pairs in native order; the
implementation is not part of this snapshot).  `entries` is the native-order
entry list; `interned` lists the keys that are stored as shared-key integer
tags (glossary: shared keys intern dictionary keys), which a lookup can only
resolve when it is given the shared-keys mapping. -/
structure DictModel (K V : Type) where
  entries : List (K × V)
  interned : List K

/-- Modelled from the spec: `Dict::get(key, sharedKeys)` - the shared-keys
aware lookup resolves every key, interned or not. -/
def DictModel.getSK {K V : Type} [DecidableEq K] (d : DictModel K V) (k : K) : Option V :=
  lookupList d.entries k

/-- Modelled from the spec: `Dict::get(key)` without shared keys - a plain
byte-string lookup cannot match keys stored as shared-key integer tags. -/
def DictModel.getNoSK {K V : Type} [DecidableEq K] (d : DictModel K V) (k : K) : Option V :=
  if k ∈ d.interned then none else lookupList d.entries k

/-- Modelled from the spec: `Dict::count()`, whose interface type is `u32`
(spec 6), reducing the entry count into the `uint32_t` range. -/
def DictModel.countU32 {K V : Type} (d : DictModel K V) : Nat :=
  d.entries.length % 2 ^ 32

namespace MDict

variable {K V : Type} [DecidableEq K] [DecidableEq V]

/-- The state of an `MDict<Native>` (MDict.hh:132-137): the borrowed
immutable dict, the `uint32_t` live count, the overlay map, the `_newKeys`
backing store, and the `MCollection` mutated flag (modelled from spec 4.D:
`mutate()` sets the flag; `isMutated()` reads it). -/
structure State (K V : Type) where
  dict : DictModel K V
  count : Nat
  map : List (K × Option V)
  newKeys : List K
  mutated : Bool

/-- Model of `MDict::init(MValue*, MCollection*)` (MDict.hh:24-29) on a fresh
`MDict()`: adopt the dict, set `_count = _dict->count()`, clear the map. -/
def init (d : DictModel K V) : State K V :=
  ⟨d, d.countU32, [], [], false⟩

/-- Model of `MDict::contains` (MDict.hh:41-47): a `_map` entry answers by
non-emptiness; otherwise defer to `_dict->get(key, sharedKeys)`. -/
def contains (s : State K V) (key : K) : Bool :=
  match lookupList s.map key with
  | some mv => mv.isSome
  | none => (DictModel.getSK s.dict key).isSome

/-- Model of `MDict::get` (MDict.hh:49-58): if the key is absent from `_map`, look it
up in `_dict` *without* shared keys (`_dict->get(key)`, the line marked
`//FIX`); a hit is materialized through `_setInMap` (MDict.hh:83-87), which
copies the key into `_newKeys` and inserts the `MValue`.  Returns the
looked-up map entry (`none` models the null pointer) and the state after. -/
def get (s : State K V) (key : K) : Option (Option V) × State K V :=
  match lookupList s.map key with
  | some mv => (some mv, s)
  | none =>
    match DictModel.getNoSK s.dict key with
    | none => (none, s)
    | some v => (some (some v),
        { s with map := s.map ++ [(key, some v)], newKeys := s.newKeys ++ [key] })

/-- Model of `MDict::set` (MDict.hh:60-81).  In the `_map`-hit branch, skip when both
the new and the old value are empty, else adjust `_count` by
`!val.isEmpty() - !i->second.isEmpty()` (a `uint32_t` add of -1/0/+1, hence
the reduction modulo `2 ^ 32`), mark mutated and overwrite.  Otherwise
consult `_dict->get(key, sharedKeys)`: present - decrement `_count` iff the
new value is empty; absent - skip an empty value, else increment; in both
non-skip branches mark mutated and `_setInMap` (append to `_newKeys`,
insert into `_map`). -/
def set (s : State K V) (key : K) (val : Option V) : State K V :=
  match lookupList s.map key with
  | some old =>
    if val = none ∧ old = none then s
    else { s with
      mutated := true
      count := (s.count + (if val ≠ none then 1 else 0)
        + (2 ^ 32 - (if old ≠ none then 1 else 0))) % 2 ^ 32
      map := updateList s.map key val }
  | none =>
    match DictModel.getSK s.dict key with
    | some _ =>
      if val = none then
        { s with
          count := (s.count + (2 ^ 32 - 1)) % 2 ^ 32
          mutated := true
          newKeys := s.newKeys ++ [key]
          map := s.map ++ [(key, val)] }
      else
        { s with
          mutated := true
          newKeys := s.newKeys ++ [key]
          map := s.map ++ [(key, val)] }
    | none =>
      if val = none then s
      else
        { s with
          count := (s.count + 1) % 2 ^ 32
          mutated := true
          newKeys := s.newKeys ++ [key]
          map := s.map ++ [(key, val)] }

/-- Model of `MDict::remove` (MDict.hh:89-91): `set(key, MValue())`. -/
def removeKey (s : State K V) (key : K) : State K V :=
  set s key none

/-- Model of `MDict::enumerate` (MDict.hh:103-114), with the callback sequence made
explicit as the produced list: first the `_map` loop emitting non-empty
entries, then the `Dict::iterator` walk (native order = `entries` order)
emitting each key with no `_map` entry as `MValue(i.value())`. -/
def enumerate (s : State K V) : List (K × Option V) :=
  (s.map.foldl (fun acc item => if item.2.isSome then acc ++ [item] else acc) [])
    ++ (s.dict.entries.foldl
        (fun acc e => if (lookupList s.map e.1).isNone then acc ++ [(e.1, some e.2)] else acc) [])

/-- The effective value of a key (claim C1's notion): its `_map` entry if
one exists, otherwise its entry in the immutable `_dict`. -/
def effective (s : State K V) (k : K) : Option V :=
  match lookupList s.map k with
  | some mv => mv
  | none => DictModel.getSK s.dict k

/-- All keys that can possibly have a non-`none` effective value. -/
def allKeysList (s : State K V) : List K :=
  s.map.map Prod.fst ++ s.dict.entries.map Prod.fst

/-- The set of keys with non-empty effective value. -/
def effKeys (s : State K V) : Finset K :=
  (allKeysList s).toFinset.filter (fun k => effective s k ≠ none)

/-- The number of keys whose effective value is non-empty. -/
def effCard (s : State K V) : Nat :=
  (effKeys s).card

/-- A public mutation: `set` or `remove`. -/
inductive Op (K V : Type) where
  | setOp (key : K) (val : Option V)
  | removeOp (key : K)

def applyOp (s : State K V) : Op K V → State K V
  | .setOp k v => set s k v
  | .removeOp k => removeKey s k

/-- The state after a sequence of public mutations starting from `init`. -/
def applyOps (d : DictModel K V) (ops : List (Op K V)) : State K V :=
  ops.foldl applyOp (init d)

/-- Well-formedness carried by the hash containers: distinct keys in the
overlay map (an `unordered_map` invariant) and in the immutable dict. -/
def WF (s : State K V) : Prop :=
  (s.map.map Prod.fst).Nodup ∧ (s.dict.entries.map Prod.fst).Nodup

end MDict

/-! ### Association-list lemmas -/

section ListLemmas

variable {α β γ : Type} [DecidableEq α]

theorem lookupList_append (l₁ l₂ : List (α × β)) (k : α) :
    lookupList (l₁ ++ l₂) k = (lookupList l₁ k).or (lookupList l₂ k) := by
  induction l₁ with
  | nil => simp [lookupList]
  | cons e rest ih =>
    by_cases h : e.1 = k <;> simp [lookupList, h, ih]

theorem lookupList_singleton (k k' : α) (v : β) :
    lookupList [(k, v)] k' = if k = k' then some v else none := by
  simp [lookupList]

theorem lookupList_eq_none_iff (l : List (α × β)) (k : α) :
    lookupList l k = none ↔ k ∉ l.map Prod.fst := by
  induction l with
  | nil => simp [lookupList]
  | cons e rest ih =>
    simp only [lookupList, List.map_cons, List.mem_cons]
    by_cases h : e.1 = k
    · simp [h]
    · simp [h, ih, Ne.symm h]

theorem lookupList_isSome_iff (l : List (α × β)) (k : α) :
    (lookupList l k).isSome ↔ k ∈ l.map Prod.fst := by
  rw [← Option.ne_none_iff_isSome, ne_eq, lookupList_eq_none_iff, not_not]

theorem mem_of_lookupList_eq_some {l : List (α × β)} {k : α} {v : β}
    (h : lookupList l k = some v) : (k, v) ∈ l := by
  induction l with
  | nil => simp [lookupList] at h
  | cons e rest ih =>
    by_cases he : e.1 = k
    · simp only [lookupList, if_pos he, Option.some.injEq] at h
      have he2 : e = (k, v) := by
        obtain ⟨e1, e2⟩ := e
        simp_all
      rw [he2]
      exact List.mem_cons_self _ _
    · simp only [lookupList, if_neg he] at h
      exact List.mem_cons_of_mem _ (ih h)

theorem lookupList_eq_some_of_mem {l : List (α × β)} (hnd : (l.map Prod.fst).Nodup)
    {k : α} {v : β} (h : (k, v) ∈ l) : lookupList l k = some v := by
  induction l with
  | nil => simp at h
  | cons e rest ih =>
    simp only [List.map_cons, List.nodup_cons] at hnd
    rcases List.mem_cons.mp h with rfl | hmem
    · simp [lookupList]
    · have hne : e.1 ≠ k := by
        intro he
        exact hnd.1 (he ▸ (List.mem_map.mpr ⟨(k, v), hmem, rfl⟩))
      simp only [lookupList, if_neg hne]
      exact ih hnd.2 hmem

theorem updateList_map_fst (l : List (α × β)) (k : α) (v : β) :
    (updateList l k v).map Prod.fst = l.map Prod.fst := by
  induction l with
  | nil => rfl
  | cons e rest ih =>
    by_cases h : e.1 = k <;> simp [updateList, h, ih]

theorem lookupList_updateList_self {l : List (α × β)} {k : α} (v : β)
    (hmem : (lookupList l k).isSome) :
    lookupList (updateList l k v) k = some v := by
  induction l with
  | nil => simp [lookupList] at hmem
  | cons e rest ih =>
    by_cases h : e.1 = k
    · simp [updateList, h, lookupList]
    · simp only [lookupList, if_neg h] at hmem
      simp [updateList, h, lookupList, ih hmem]

theorem lookupList_updateList_ne {l : List (α × β)} {k k' : α} (v : β) (h : k' ≠ k) :
    lookupList (updateList l k v) k' = lookupList l k' := by
  induction l with
  | nil => rfl
  | cons e rest ih =>
    by_cases he : e.1 = k
    · subst he
      simp [updateList, lookupList, Ne.symm h]
    · simp only [updateList, if_neg he, lookupList, ih]

theorem foldl_filter_emit (p : β → Bool) (f : β → γ) :
    ∀ (l : List β) (acc : List γ),
      l.foldl (fun acc e => if p e then acc ++ [f e] else acc) acc
        = acc ++ (l.filter p).map f := by
  intro l
  induction l with
  | nil => intro acc; simp
  | cons e rest ih =>
    intro acc
    by_cases h : p e <;> simp [List.filter_cons, h, ih]

end ListLemmas

/-! ### `MDict.set`: branch characterizations -/

section MDictLemmas

variable {K V : Type} [DecidableEq K] [DecidableEq V]

theorem set_skip_tombstone {s : MDict.State K V} {k : K}
    (hm : lookupList s.map k = some none) :
    MDict.set s k none = s := by
  simp [MDict.set, hm]

theorem set_overwrite {s : MDict.State K V} {k : K} {v : Option V} {old : Option V}
    (hm : lookupList s.map k = some old) (hne : ¬(v = none ∧ old = none)) :
    MDict.set s k v = ⟨s.dict,
      (s.count + (if v ≠ none then 1 else 0) + (2 ^ 32 - (if old ≠ none then 1 else 0))) % 2 ^ 32,
      updateList s.map k v, s.newKeys, true⟩ := by
  simp only [MDict.set, hm, if_neg hne]

theorem set_shadow_empty {s : MDict.State K V} {k : K} {w : V}
    (hm : lookupList s.map k = none) (hd : DictModel.getSK s.dict k = some w) :
    MDict.set s k none = ⟨s.dict, (s.count + (2 ^ 32 - 1)) % 2 ^ 32,
      s.map ++ [(k, none)], s.newKeys ++ [k], true⟩ := by
  simp [MDict.set, hm, hd]

theorem set_shadow_nonempty {s : MDict.State K V} {k : K} {v : Option V} {w : V}
    (hm : lookupList s.map k = none) (hd : DictModel.getSK s.dict k = some w)
    (hv : v ≠ none) :
    MDict.set s k v = ⟨s.dict, s.count,
      s.map ++ [(k, v)], s.newKeys ++ [k], true⟩ := by
  simp only [MDict.set, hm, hd, if_neg hv]

theorem set_absent_skip {s : MDict.State K V} {k : K}
    (hm : lookupList s.map k = none) (hd : DictModel.getSK s.dict k = none) :
    MDict.set s k none = s := by
  simp [MDict.set, hm, hd]

theorem set_absent_insert {s : MDict.State K V} {k : K} {v : Option V}
    (hm : lookupList s.map k = none) (hd : DictModel.getSK s.dict k = none)
    (hv : v ≠ none) :
    MDict.set s k v = ⟨s.dict, (s.count + 1) % 2 ^ 32,
      s.map ++ [(k, v)], s.newKeys ++ [k], true⟩ := by
  simp only [MDict.set, hm, hd, if_neg hv]

/-- After `set s k v`, the effective value of `k` is `v` (also across the
skip branches, where the old effective value already equals `v = none`), and
other keys are untouched. -/
theorem effective_set (s : MDict.State K V) (k : K) (v : Option V) (k' : K) :
    MDict.effective (MDict.set s k v) k'
      = if k' = k then v else MDict.effective s k' := by
  cases hm : lookupList s.map k with
  | some old =>
    by_cases hskip : v = none ∧ old = none
    · obtain ⟨rfl, rfl⟩ := hskip
      rw [set_skip_tombstone hm]
      by_cases hk : k' = k
      · subst hk; simp [MDict.effective, hm]
      · simp [hk]
    · rw [set_overwrite hm hskip]
      by_cases hk : k' = k
      · subst hk
        have hupd : lookupList (updateList s.map k' v) k' = some v :=
          lookupList_updateList_self v (by rw [hm]; rfl)
        simp [MDict.effective, hupd]
      · simp only [if_neg hk, MDict.effective, lookupList_updateList_ne v hk]
  | none =>
    cases hd : DictModel.getSK s.dict k with
    | some w =>
      by_cases hv : v = none
      · subst hv
        rw [set_shadow_empty hm hd]
        by_cases hk : k' = k
        · subst hk
          simp [MDict.effective, lookupList_append, hm, lookupList_singleton]
        · simp only [if_neg hk, MDict.effective, lookupList_append,
            lookupList_singleton, if_neg (Ne.symm hk), Option.or_none]
      · rw [set_shadow_nonempty hm hd hv]
        by_cases hk : k' = k
        · subst hk
          simp [MDict.effective, lookupList_append, hm, lookupList_singleton]
        · simp only [if_neg hk, MDict.effective, lookupList_append,
            lookupList_singleton, if_neg (Ne.symm hk), Option.or_none]
    | none =>
      by_cases hv : v = none
      · subst hv
        rw [set_absent_skip hm hd]
        by_cases hk : k' = k
        · subst hk; simp [MDict.effective, hm, hd]
        · simp [hk]
      · rw [set_absent_insert hm hd hv]
        by_cases hk : k' = k
        · subst hk
          simp [MDict.effective, lookupList_append, hm, lookupList_singleton]
        · simp only [if_neg hk, MDict.effective, lookupList_append,
            lookupList_singleton, if_neg (Ne.symm hk), Option.or_none]

end MDictLemmas

/-! ### The count/cardinality invariant -/

section CountInvariant

variable {K V : Type} [DecidableEq K] [DecidableEq V]

theorem mem_allKeysList_of_effective {s : MDict.State K V} {k : K}
    (h : MDict.effective s k ≠ none) : k ∈ MDict.allKeysList s := by
  unfold MDict.effective at h
  unfold MDict.allKeysList
  cases hm : lookupList s.map k with
  | some mv =>
    exact List.mem_append_left _ ((lookupList_isSome_iff _ _).mp (by rw [hm]; rfl))
  | none =>
    rw [hm] at h
    refine List.mem_append_right _ ?_
    have hd : (lookupList s.dict.entries k).isSome := by
      unfold DictModel.getSK at h
      cases hq : lookupList s.dict.entries k
      · exact absurd hq h
      · rfl
    exact (lookupList_isSome_iff _ _).mp hd

theorem mem_effKeys {s : MDict.State K V} {k : K} :
    k ∈ MDict.effKeys s ↔ MDict.effective s k ≠ none := by
  unfold MDict.effKeys
  rw [Finset.mem_filter, List.mem_toFinset]
  exact ⟨fun h => h.2, fun h => ⟨mem_allKeysList_of_effective h, h⟩⟩

/-- The `set` operation shrinks the effective-key set by `k` when the new value is empty
and inserts `k` otherwise. -/
theorem effKeys_set (s : MDict.State K V) (k : K) (v : Option V) :
    MDict.effKeys (MDict.set s k v)
      = if v = none then (MDict.effKeys s).erase k else insert k (MDict.effKeys s) := by
  ext k'
  by_cases hk : k' = k
  · subst hk
    by_cases hv : v = none
    · subst hv
      rw [if_pos rfl, mem_effKeys, effective_set]
      simp
    · rw [if_neg hv, mem_effKeys, effective_set]
      simp [hv]
  · by_cases hv : v = none
    · subst hv
      rw [if_pos rfl, mem_effKeys, effective_set, Finset.mem_erase]
      simp only [if_neg hk]
      rw [mem_effKeys]
      simp [hk]
    · rw [if_neg hv, mem_effKeys, effective_set, Finset.mem_insert]
      simp only [if_neg hk]
      rw [mem_effKeys]
      simp [hk]

/-- One `set` preserves `_count = |effective keys| mod 2^32`. -/
theorem count_card_step (s : MDict.State K V) (k : K) (v : Option V)
    (h : s.count = MDict.effCard s % 2 ^ 32) :
    (MDict.set s k v).count = MDict.effCard (MDict.set s k v) % 2 ^ 32 := by
  have hM : (2 : Nat) ^ 32 = 4294967296 := by norm_num
  have hker := effKeys_set s k v
  by_cases hv : v = none
  · subst hv
    rw [if_pos rfl] at hker
    by_cases hmem : k ∈ MDict.effKeys s
    · have hcard : MDict.effCard (MDict.set s k none) = MDict.effCard s - 1 := by
        rw [MDict.effCard, hker, Finset.card_erase_of_mem hmem]
        rfl
      have hpos : 1 ≤ MDict.effCard s := Finset.card_pos.mpr ⟨k, hmem⟩
      have heff : MDict.effective s k ≠ none := mem_effKeys.mp hmem
      cases hm : lookupList s.map k with
      | some old =>
        have hold : old ≠ none := by
          intro hn
          exact heff (by simp [MDict.effective, hm, hn])
        have hcount : (MDict.set s k none).count = (s.count + (2 ^ 32 - 1)) % 2 ^ 32 := by
          rw [set_overwrite hm (by simp [hold])]
          simp [hold]
        rw [hcount, hcard, h]
        rw [hM]
        omega
      | none =>
        have heq : MDict.effective s k = DictModel.getSK s.dict k := by
          simp [MDict.effective, hm]
        cases hd : DictModel.getSK s.dict k with
        | none => exact absurd (heq.trans hd) heff
        | some w =>
          have hcount : (MDict.set s k none).count = (s.count + (2 ^ 32 - 1)) % 2 ^ 32 := by
            rw [set_shadow_empty hm hd]
          rw [hcount, hcard, h]
          rw [hM]
          omega
    · have hcard : MDict.effCard (MDict.set s k none) = MDict.effCard s := by
        rw [MDict.effCard, hker, Finset.erase_eq_of_not_mem hmem]
        rfl
      have heff : MDict.effective s k = none := by
        by_contra hne
        exact hmem (mem_effKeys.mpr hne)
      cases hm : lookupList s.map k with
      | some old =>
        have hold : old = none := by
          have : MDict.effective s k = old := by simp [MDict.effective, hm]
          rw [this] at heff; exact heff
        subst hold
        rw [set_skip_tombstone hm]
        exact h
      | none =>
        have hd : DictModel.getSK s.dict k = none := by
          have : MDict.effective s k = DictModel.getSK s.dict k := by
            simp [MDict.effective, hm]
          rw [this] at heff; exact heff
        rw [set_absent_skip hm hd]
        exact h
  · rw [if_neg hv] at hker
    by_cases hmem : k ∈ MDict.effKeys s
    · have hcard : MDict.effCard (MDict.set s k v) = MDict.effCard s := by
        rw [MDict.effCard, hker, Finset.insert_eq_self.mpr hmem]
        rfl
      have heff : MDict.effective s k ≠ none := mem_effKeys.mp hmem
      cases hm : lookupList s.map k with
      | some old =>
        have hold : old ≠ none := by
          intro hn
          exact heff (by simp [MDict.effective, hm, hn])
        have hcount : (MDict.set s k v).count
            = (s.count + 1 + (2 ^ 32 - 1)) % 2 ^ 32 := by
          rw [set_overwrite hm (fun hc => hv hc.1)]
          simp [hv, hold]
        rw [hcount, hcard, h]
        rw [hM]
        omega
      | none =>
        have heq : MDict.effective s k = DictModel.getSK s.dict k := by
          simp [MDict.effective, hm]
        cases hd : DictModel.getSK s.dict k with
        | none => exact absurd (heq.trans hd) heff
        | some w =>
          have hcount : (MDict.set s k v).count = s.count := by
            rw [set_shadow_nonempty hm hd hv]
          rw [hcount, hcard, h]
    · have hcard : MDict.effCard (MDict.set s k v) = MDict.effCard s + 1 := by
        rw [MDict.effCard, hker, Finset.card_insert_of_not_mem hmem]
        rfl
      have heff : MDict.effective s k = none := by
        by_contra hne
        exact hmem (mem_effKeys.mpr hne)
      cases hm : lookupList s.map k with
      | some old =>
        have hold : old = none := by
          have : MDict.effective s k = old := by simp [MDict.effective, hm]
          rw [this] at heff; exact heff
        subst hold
        have hcount : (MDict.set s k v).count
            = (s.count + 1 + (2 ^ 32 - 0)) % 2 ^ 32 := by
          rw [set_overwrite hm (fun hc => hv hc.1)]
          simp [hv]
        rw [hcount, hcard, h]
        rw [hM]
        omega
      | none =>
        have hd : DictModel.getSK s.dict k = none := by
          have : MDict.effective s k = DictModel.getSK s.dict k := by
            simp [MDict.effective, hm]
          rw [this] at heff; exact heff
        have hcount : (MDict.set s k v).count = (s.count + 1) % 2 ^ 32 := by
          rw [set_absent_insert hm hd hv]
        rw [hcount, hcard, h]
        rw [hM]
        omega

theorem count_card_init (d : DictModel K V) (hnd : (d.entries.map Prod.fst).Nodup) :
    (MDict.init d).count = MDict.effCard (MDict.init d) % 2 ^ 32 := by
  have hkeys : MDict.effKeys (MDict.init d) = (d.entries.map Prod.fst).toFinset := by
    rw [MDict.effKeys]
    have hall : MDict.allKeysList (MDict.init d) = d.entries.map Prod.fst := by
      simp [MDict.allKeysList, MDict.init]
    rw [hall]
    apply Finset.filter_true_of_mem
    intro k hk
    rw [List.mem_toFinset] at hk
    have : (lookupList d.entries k).isSome := (lookupList_isSome_iff _ _).mpr hk
    simp only [MDict.effective, MDict.init, lookupList, DictModel.getSK]
    cases hq : lookupList d.entries k
    · rw [hq] at this; exact absurd this (by simp)
    · simp
  show DictModel.countU32 d = MDict.effCard (MDict.init d) % 2 ^ 32
  rw [MDict.effCard, hkeys, List.toFinset_card_of_nodup hnd, DictModel.countU32,
    List.length_map]

theorem count_card_foldl (ops : List (MDict.Op K V)) (s : MDict.State K V)
    (h : s.count = MDict.effCard s % 2 ^ 32) :
    (ops.foldl MDict.applyOp s).count
      = MDict.effCard (ops.foldl MDict.applyOp s) % 2 ^ 32 := by
  induction ops generalizing s with
  | nil => exact h
  | cons op rest ih =>
    rw [List.foldl_cons]
    apply ih
    cases op with
    | setOp k v => exact count_card_step s k v h
    | removeOp k => exact count_card_step s k none h

end CountInvariant

/-! ### Reaching the `uint32_t` wrap of `_count`

`_count` is a `uint32_t` (MDict.hh:134).  A dictionary that starts empty and
receives `2 ^ 32` `set`s of distinct fresh keys with non-empty values has
`2 ^ 32` keys with non-empty effective values while `_count` has wrapped to
0.  The keys are byte strings: the i-th key is i zero bytes. -/

def natKey (i : Nat) : List Nat := List.replicate i 0

theorem natKey_injective : Function.Injective natKey := by
  intro a b h
  have hlen := congrArg List.length h
  simpa [natKey] using hlen

def bigDict : DictModel (List Nat) Nat := ⟨[], []⟩

def bigOps (n : Nat) : List (MDict.Op (List Nat) Nat) :=
  (List.range n).map (fun i => MDict.Op.setOp (natKey i) (some 0))

def bigMap (n : Nat) : List (List Nat × Option Nat) :=
  (List.range n).map (fun i => (natKey i, some 0))

theorem bigMap_map_fst (n : Nat) :
    (bigMap n).map Prod.fst = (List.range n).map natKey := by
  rw [bigMap, List.map_map]
  rfl

theorem lookupList_bigMap_fresh (n : Nat) :
    lookupList (bigMap n) (natKey n) = none := by
  rw [lookupList_eq_none_iff, bigMap_map_fst]
  intro hmem
  obtain ⟨i, hi, hkey⟩ := List.mem_map.mp hmem
  have hin := natKey_injective hkey
  rw [hin] at hi
  exact absurd (List.mem_range.mp hi) (lt_irrefl n)

theorem lookupList_bigMap_mem {n i : Nat} (hi : i < n) :
    lookupList (bigMap n) (natKey i) = some (some 0) := by
  induction n with
  | zero => exact absurd hi (Nat.not_lt_zero i)
  | succ m ih =>
    have hsplit : bigMap (m + 1) = bigMap m ++ [(natKey m, some 0)] := by
      simp [bigMap, List.range_succ]
    rw [hsplit, lookupList_append]
    rcases Nat.lt_or_ge i m with him | him
    · rw [ih him]
      rfl
    · have hieq : i = m := by omega
      subst hieq
      rw [lookupList_bigMap_fresh i, lookupList_singleton]
      simp

theorem applyOps_append {K V : Type} [DecidableEq K] [DecidableEq V]
    (d : DictModel K V) (ops₁ ops₂ : List (MDict.Op K V)) :
    MDict.applyOps d (ops₁ ++ ops₂) = ops₂.foldl MDict.applyOp (MDict.applyOps d ops₁) := by
  rw [MDict.applyOps, MDict.applyOps, List.foldl_append]

/-- The state after `n` fresh-key insertions into the empty dict: the count
has wrapped modulo `2 ^ 32` while the overlay map holds all `n` keys. -/
theorem applyOps_bigOps (n : Nat) :
    MDict.applyOps bigDict (bigOps n)
      = ⟨bigDict, n % 2 ^ 32, bigMap n, (List.range n).map natKey, decide (n ≠ 0)⟩ := by
  induction n with
  | zero =>
    simp [MDict.applyOps, bigOps, MDict.init, bigMap, bigDict, DictModel.countU32]
  | succ m ih =>
    have hsplit : bigOps (m + 1) = bigOps m ++ [MDict.Op.setOp (natKey m) (some 0)] := by
      simp [bigOps, List.range_succ]
    rw [hsplit, applyOps_append, ih]
    show MDict.set ⟨bigDict, m % 2 ^ 32, bigMap m, (List.range m).map natKey, decide (m ≠ 0)⟩
        (natKey m) (some 0) = _
    rw [set_absent_insert (s := ⟨bigDict, m % 2 ^ 32, bigMap m,
        (List.range m).map natKey, decide (m ≠ 0)⟩) (lookupList_bigMap_fresh m)
      (by rfl) (by simp)]
    simp only [MDict.State.mk.injEq]
    refine ⟨trivial, ?_, ?_, ?_, ?_⟩
    · rw [Nat.add_mod m 1]
      norm_num
    · simp [bigMap, List.range_succ]
    · simp [List.range_succ]
    · simp

theorem effCard_bigState (n : Nat) :
    MDict.effCard (MDict.applyOps bigDict (bigOps n)) = n := by
  rw [applyOps_bigOps]
  have hall : MDict.allKeysList (K := List Nat) (V := Nat)
      ⟨bigDict, n % 2 ^ 32, bigMap n, (List.range n).map natKey, decide (n ≠ 0)⟩
        = (List.range n).map natKey := by
    rw [MDict.allKeysList, bigMap_map_fst]
    simp [bigDict]
  have hkeys : MDict.effKeys (K := List Nat) (V := Nat)
      ⟨bigDict, n % 2 ^ 32, bigMap n, (List.range n).map natKey, decide (n ≠ 0)⟩
        = ((List.range n).map natKey).toFinset := by
    rw [MDict.effKeys, hall]
    apply Finset.filter_true_of_mem
    intro k hk
    rw [List.mem_toFinset] at hk
    obtain ⟨i, hi, rfl⟩ := List.mem_map.mp hk
    have hlk := lookupList_bigMap_mem (List.mem_range.mp hi)
    simp [MDict.effective, hlk]
  have hnd : ((List.range n).map natKey).Nodup :=
    (List.nodup_range n).map natKey_injective
  rw [MDict.effCard, hkeys, List.toFinset_card_of_nodup hnd, List.length_map,
    List.length_range]

/-! ### Claim C1 -/

/-- C1, counterexample: `_count` is a `uint32_t`, so after the `2 ^ 32`
fresh-key insertions of `bigOps (2 ^ 32)` on the empty dict, `2 ^ 32` keys
have non-empty effective values while `count()` has wrapped to 0 - the
claimed equality fails on this `set` sequence. -/
theorem mdict_count_wrap_counterexample :
    ¬ ((MDict.applyOps bigDict (bigOps (2 ^ 32))).count
        = MDict.effCard (MDict.applyOps bigDict (bigOps (2 ^ 32)))) := by
  rw [effCard_bigState, applyOps_bigOps]
  show ¬ ((2 : Nat) ^ 32 % 2 ^ 32 = 2 ^ 32)
  norm_num

/-- C1 (amended): for an MDict initialized over an immutable dict with
distinct keys, after any sequence of `set`/`remove` operations, `count()`
equals the number of keys whose effective value is non-empty, *reduced
modulo `2 ^ 32`* (the `uint32_t` width of `_count`); the two agree exactly
whenever that number stays below `2 ^ 32`. -/
theorem mdict_count_invariant {K V : Type} [DecidableEq K] [DecidableEq V]
    (d : DictModel K V) (ops : List (MDict.Op K V))
    (hnd : (d.entries.map Prod.fst).Nodup) :
    (MDict.applyOps d ops).count = MDict.effCard (MDict.applyOps d ops) % 2 ^ 32 :=
  count_card_foldl ops (MDict.init d) (count_card_init d hnd)

/-- C1 witness: the invariant evaluated on the dict `{1 ↦ 5}` after
`set 2 (some 7)` then `remove 1`. -/
theorem mdict_count_invariant_witness :
    ((⟨[(1, 5)], []⟩ : DictModel Nat Nat).entries.map Prod.fst).Nodup ∧
      (MDict.applyOps (⟨[(1, 5)], []⟩ : DictModel Nat Nat)
          [MDict.Op.setOp 2 (some 7), MDict.Op.removeOp 1]).count
        = MDict.effCard (MDict.applyOps (⟨[(1, 5)], []⟩ : DictModel Nat Nat)
            [MDict.Op.setOp 2 (some 7), MDict.Op.removeOp 1]) % 2 ^ 32 :=
  ⟨by decide, mdict_count_invariant _ _ (by decide)⟩

/-! ### Claim C3: counterexample at the wrap -/

/-- If a key has a `_map` entry, its effective value is that entry. -/
theorem effective_of_lookup {K V : Type} [DecidableEq K] [DecidableEq V]
    {s : MDict.State K V} {k : K} {mv : Option V}
    (h : lookupList s.map k = some mv) : MDict.effective s k = mv := by
  rw [MDict.effective, h]

/-- Removing a key whose `_map` entry is non-empty decrements the `uint32_t`
count with wraparound. -/
theorem set_remove_count {K V : Type} [DecidableEq K] [DecidableEq V]
    {s : MDict.State K V} {k : K} {old : Option V}
    (hm : lookupList s.map k = some old) (hold : old ≠ none) :
    (MDict.set s k none).count = (s.count + (2 ^ 32 - 1)) % 2 ^ 32 := by
  rw [set_overwrite hm (by simp [hold])]
  simp [hold]

/-- C3, counterexample: in the wrapped state reached by `2 ^ 32` fresh
insertions (`count() = 0`), removing the present key `natKey 0` leaves
`count() = 2 ^ 32 - 1`: the change is not the exact integer delta
`!value.isEmpty() - !oldValue.isEmpty() = -1`; it only matches modulo
`2 ^ 32`. -/
theorem mdict_set_count_delta_counterexample :
    ¬ (((MDict.set (MDict.applyOps bigDict (bigOps (2 ^ 32))) (natKey 0) none).count : Int)
        = ((MDict.applyOps bigDict (bigOps (2 ^ 32))).count : Int)
          + ((if (none : Option Nat) ≠ none then 1 else 0)
            - (if MDict.effective (MDict.applyOps bigDict (bigOps (2 ^ 32))) (natKey 0)
                  ≠ none then 1 else 0))) := by
  have hbig := applyOps_bigOps (2 ^ 32)
  have hmapeq : (MDict.applyOps bigDict (bigOps (2 ^ 32))).map = bigMap (2 ^ 32) := by
    rw [hbig]
  have hlk : lookupList (MDict.applyOps bigDict (bigOps (2 ^ 32))).map (natKey 0)
      = some (some 0) := by
    rw [hmapeq]
    exact lookupList_bigMap_mem (by norm_num)
  have heff : MDict.effective (MDict.applyOps bigDict (bigOps (2 ^ 32))) (natKey 0)
      = some 0 := effective_of_lookup hlk
  have hc : (MDict.applyOps bigDict (bigOps (2 ^ 32))).count = 2 ^ 32 % 2 ^ 32 := by
    rw [hbig]
  have hcount := @set_remove_count (List Nat) Nat _ _
    (MDict.applyOps bigDict (bigOps (2 ^ 32))) (natKey 0) (some 0) hlk (by simp)
  have h1 : (if (none : Option Nat) ≠ none then (1 : Int) else 0) = 0 := by simp
  have h2 : (if MDict.effective (MDict.applyOps bigDict (bigOps (2 ^ 32))) (natKey 0)
      ≠ none then (1 : Int) else 0) = 1 := by
    rw [heff]
    simp
  rw [h1, h2, hcount, hc]
  norm_num

/-- C3 (amended): for every MDict state (with its `uint32_t` count in
range), `set(key, value)` changes `count()` by exactly
`!value.isEmpty() - !oldValue.isEmpty()` *in uint32 arithmetic* (modulo
`2 ^ 32`; the exact integer delta holds whenever no wraparound occurs),
where `oldValue` is the existing `_map` entry or, absent that, the
immutable `_dict` entry; when the effective change is null - setting empty
over an empty map entry, or the key absent everywhere with an empty value -
`set` performs no mutation at all (the state, including the mutated flag,
the map and `_newKeys`, is unchanged); otherwise it marks the collection
mutated and writes the entry into `_map`. -/
theorem mdict_set_spec {K V : Type} [DecidableEq K] [DecidableEq V]
    (s : MDict.State K V) (k : K) (v : Option V) (hcnt : s.count < 2 ^ 32) :
    ((MDict.set s k v).count
        = (s.count + (if v ≠ none then 1 else 0)
            + (2 ^ 32 - (if MDict.effective s k ≠ none then 1 else 0))) % 2 ^ 32) ∧
    ((v = none ∧ (lookupList s.map k = some none
          ∨ (lookupList s.map k = none ∧ DictModel.getSK s.dict k = none)))
        → MDict.set s k v = s) ∧
    (¬(v = none ∧ (lookupList s.map k = some none
          ∨ (lookupList s.map k = none ∧ DictModel.getSK s.dict k = none)))
        → (MDict.set s k v).mutated = true
          ∧ lookupList (MDict.set s k v).map k = some v) := by
  have hM : (2 : Nat) ^ 32 = 4294967296 := by norm_num
  cases hm : lookupList s.map k with
  | some old =>
    have heff : MDict.effective s k = old := effective_of_lookup hm
    by_cases hskip : v = none ∧ old = none
    · obtain ⟨rfl, rfl⟩ := hskip
      rw [set_skip_tombstone hm]
      refine ⟨?_, fun _ => rfl, fun hn => (hn ⟨rfl, Or.inl rfl⟩).elim⟩
      rw [heff]
      simp only [ne_eq, not_true_eq_false, if_false, Nat.sub_zero]
      rw [hM] at hcnt ⊢
      omega
    · rw [set_overwrite hm hskip]
      refine ⟨by rw [heff], ?_, ?_⟩
      · rintro ⟨hveq, h1 | h2⟩
        · injection h1 with h1
          exact absurd ⟨hveq, h1⟩ hskip
        · exact Option.noConfusion h2.1
      · intro _
        exact ⟨rfl, lookupList_updateList_self v (by rw [hm]; rfl)⟩
  | none =>
    have heffd : MDict.effective s k = DictModel.getSK s.dict k := by
      rw [MDict.effective, hm]
    cases hd : DictModel.getSK s.dict k with
    | some w =>
      have heff : MDict.effective s k = some w := heffd.trans hd
      by_cases hv : v = none
      · subst hv
        rw [set_shadow_empty hm hd]
        refine ⟨?_, ?_, ?_⟩
        · rw [heff]
          simp
        · rintro ⟨-, h1 | h2⟩
          · exact Option.noConfusion h1
          · exact Option.noConfusion h2.2
        · intro _
          refine ⟨rfl, ?_⟩
          rw [lookupList_append, hm, lookupList_singleton]
          simp
      · rw [set_shadow_nonempty hm hd hv]
        refine ⟨?_, ?_, ?_⟩
        · rw [heff]
          simp only [ne_eq, hv, not_false_eq_true, if_true, Option.some_ne_none,
            not_true_eq_false]
          rw [hM] at hcnt ⊢
          omega
        · rintro ⟨hveq, -⟩
          exact absurd hveq hv
        · intro _
          refine ⟨rfl, ?_⟩
          rw [lookupList_append, hm, lookupList_singleton]
          simp
    | none =>
      have heff : MDict.effective s k = none := heffd.trans hd
      by_cases hv : v = none
      · subst hv
        rw [set_absent_skip hm hd]
        refine ⟨?_, fun _ => rfl, fun hn => (hn ⟨rfl, Or.inr ⟨rfl, rfl⟩⟩).elim⟩
        rw [heff]
        simp only [ne_eq, not_true_eq_false, if_false, Nat.sub_zero]
        rw [hM] at hcnt ⊢
        omega
      · rw [set_absent_insert hm hd hv]
        refine ⟨?_, ?_, ?_⟩
        · rw [heff]
          simp only [ne_eq, hv, not_false_eq_true, if_true, not_true_eq_false, if_false,
            Nat.sub_zero, Nat.add_mod_right]
        · rintro ⟨hveq, -⟩
          exact absurd hveq hv
        · intro _
          refine ⟨rfl, ?_⟩
          rw [lookupList_append, hm, lookupList_singleton]
          simp

/-- C3 witness: removing the immutable-backed key 1 from `init {1 ↦ 5}`
decrements the count from 1 to 0 per the uint32 delta formula. -/
theorem mdict_set_spec_witness :
    (MDict.init (⟨[(1, 5)], []⟩ : DictModel Nat Nat)).count < 2 ^ 32 ∧
      (MDict.set (MDict.init (⟨[(1, 5)], []⟩ : DictModel Nat Nat)) 1 none).count
        = ((MDict.init (⟨[(1, 5)], []⟩ : DictModel Nat Nat)).count
            + (if (none : Option Nat) ≠ none then 1 else 0)
            + (2 ^ 32 - (if MDict.effective
                (MDict.init (⟨[(1, 5)], []⟩ : DictModel Nat Nat)) 1 ≠ none
              then 1 else 0))) % 2 ^ 32 :=
  ⟨by decide, (mdict_set_spec (MDict.init (⟨[(1, 5)], []⟩ : DictModel Nat Nat)) 1 none
    (by decide)).1⟩

/-! ### Enumeration helpers -/

section EnumHelpers

variable {K V W : Type} [DecidableEq K] [DecidableEq V]

/-- The two callback loops of `enumerate`, written as filters: first the
non-empty map entries (map iteration order), then the unshadowed immutable
entries in native order. -/
theorem enumerate_eq_filter (s : MDict.State K V) :
    MDict.enumerate s
      = s.map.filter (fun e => e.2.isSome)
        ++ (s.dict.entries.filter (fun e => (lookupList s.map e.1).isNone)).map
            (fun e => (e.1, some e.2)) := by
  simp only [MDict.enumerate, foldl_filter_emit, List.nil_append, List.map_id']

theorem lookupList_filter_eq_none (l : List (K × V)) (q : K × V → Bool) (k : K)
    (hk : lookupList l k = none) : lookupList (l.filter q) k = none := by
  rw [lookupList_eq_none_iff] at hk ⊢
  intro hmem
  obtain ⟨e, he, heq⟩ := List.mem_map.mp hmem
  exact hk (List.mem_map.mpr ⟨e, List.mem_of_mem_filter he, heq⟩)

theorem lookupList_filter_map_eq_none (l : List (K × V)) (q : K × V → Bool) (g : V → W)
    (k : K) (hk : k ∉ l.map Prod.fst) :
    lookupList ((l.filter q).map (fun e => (e.1, g e.2))) k = none := by
  rw [lookupList_eq_none_iff, List.map_map]
  intro hmem
  obtain ⟨e, he, heq⟩ := List.mem_map.mp hmem
  exact hk (List.mem_map.mpr ⟨e, List.mem_of_mem_filter he, heq⟩)

/-- Key lemma for the dict loop: looking a key up in the filtered, re-tagged
entry list agrees with the plain lookup guarded by the filter. -/
theorem lookupList_filter_map (l : List (K × V)) (hnd : (l.map Prod.fst).Nodup)
    (q : K × V → Bool) (g : V → W) (k : K) :
    lookupList ((l.filter q).map (fun e => (e.1, g e.2))) k
      = match lookupList l k with
        | some v => if q (k, v) then some (g v) else none
        | none => none := by
  induction l with
  | nil => simp [lookupList]
  | cons e rest ih =>
    simp only [List.map_cons, List.nodup_cons] at hnd
    obtain ⟨e1, e2⟩ := e
    by_cases he : e1 = k
    · subst he
      by_cases hq : q (e1, e2)
      · simp [List.filter_cons, hq, lookupList]
      · have hfilter : List.filter q ((e1, e2) :: rest) = List.filter q rest := by
          simp [List.filter_cons, hq]
        rw [hfilter, lookupList_filter_map_eq_none rest q g e1 hnd.1]
        simp [lookupList, hq]
    · have hrec := ih hnd.2
      by_cases hq : q (e1, e2) <;>
        simp [List.filter_cons, hq, lookupList, he, hrec]

theorem lookupList_append_single_ne (l : List (K × V)) {k k' : K} (v : V) (h : k ≠ k') :
    lookupList (l ++ [(k, v)]) k' = lookupList l k' := by
  rw [lookupList_append, lookupList_singleton, if_neg h, Option.or_none]

/-- Modelled-from-spec consequence: a key the plain (no shared keys) lookup
resolves is also resolved by the shared-keys-aware lookup. -/
theorem getSK_of_getNoSK {d : DictModel K V} {k : K} {v : V}
    (h : DictModel.getNoSK d k = some v) : DictModel.getSK d k = some v := by
  rw [DictModel.getNoSK] at h
  by_cases hi : k ∈ d.interned
  · rw [if_pos hi] at h
    cases h
  · rw [if_neg hi] at h
    exact h

end EnumHelpers

/-! ### Claim C8: enumeration order and coverage -/

/-- C8: `enumerate` first invokes the callback on every non-empty `_map`
entry (in the map's own iteration order), and only afterwards walks the
immutable `_dict` in its native order, emitting each key that has no `_map`
entry; an emitted pair is exactly a non-empty map entry or an unshadowed
immutable entry; no key is emitted twice; and no tombstoned key is
emitted. -/
theorem mdict_enumerate_spec {K V : Type} [DecidableEq K] [DecidableEq V]
    (s : MDict.State K V) (hwf : MDict.WF s) :
    (MDict.enumerate s
        = s.map.filter (fun e => e.2.isSome)
          ++ (s.dict.entries.filter (fun e => (lookupList s.map e.1).isNone)).map
              (fun e => (e.1, some e.2))) ∧
    (∀ k mv, (k, mv) ∈ MDict.enumerate s
        ↔ ((lookupList s.map k = some mv ∧ mv.isSome)
          ∨ (lookupList s.map k = none
              ∧ ∃ v, lookupList s.dict.entries k = some v ∧ mv = some v))) ∧
    ((MDict.enumerate s).map Prod.fst).Nodup ∧
    (∀ k, lookupList s.map k = some none → k ∉ (MDict.enumerate s).map Prod.fst) := by
  obtain ⟨hmapnd, hdictnd⟩ := hwf
  have hE := enumerate_eq_filter s
  have hmem : ∀ k mv, (k, mv) ∈ MDict.enumerate s
      ↔ ((lookupList s.map k = some mv ∧ mv.isSome)
        ∨ (lookupList s.map k = none
            ∧ ∃ v, lookupList s.dict.entries k = some v ∧ mv = some v)) := by
    intro k mv
    rw [hE, List.mem_append]
    constructor
    · rintro (hin | hin)
      · obtain ⟨hel, hp⟩ := List.mem_filter.mp hin
        exact Or.inl ⟨lookupList_eq_some_of_mem hmapnd hel, hp⟩
      · obtain ⟨e, hef, heq⟩ := List.mem_map.mp hin
        obtain ⟨hel, hq⟩ := List.mem_filter.mp hef
        obtain ⟨e1, e2⟩ := e
        injection heq with h1 h2
        subst h1
        refine Or.inr ⟨by simpa using hq, e2, lookupList_eq_some_of_mem hdictnd hel, h2.symm⟩
    · rintro (⟨hlk, hp⟩ | ⟨hlk, v, hdk, rfl⟩)
      · exact Or.inl (List.mem_filter.mpr ⟨mem_of_lookupList_eq_some hlk, hp⟩)
      · refine Or.inr (List.mem_map.mpr ⟨(k, v), List.mem_filter.mpr
          ⟨mem_of_lookupList_eq_some hdk, by simpa using hlk⟩, rfl⟩)
  have hnd : ((MDict.enumerate s).map Prod.fst).Nodup := by
    rw [hE, List.map_append]
    refine List.Nodup.append ?_ ?_ ?_
    · exact ((List.filter_sublist _).map Prod.fst).nodup hmapnd
    · rw [List.map_map]
      have : (List.map (Prod.fst ∘ fun e => (e.1, some e.2))
          (s.dict.entries.filter (fun e => (lookupList s.map e.1).isNone)))
            = List.map Prod.fst (s.dict.entries.filter
                (fun e => (lookupList s.map e.1).isNone)) := rfl
      rw [this]
      exact ((List.filter_sublist _).map Prod.fst).nodup hdictnd
    · intro a ha hb
      obtain ⟨e, he, heq⟩ := List.mem_map.mp ha
      obtain ⟨hel, -⟩ := List.mem_filter.mp he
      have hka : a ∈ s.map.map Prod.fst := List.mem_map.mpr ⟨e, hel, heq⟩
      rw [List.map_map] at hb
      obtain ⟨e', he', heq'⟩ := List.mem_map.mp hb
      obtain ⟨-, hq'⟩ := List.mem_filter.mp he'
      have hnone : lookupList s.map e'.1 = none := by simpa using hq'
      rw [lookupList_eq_none_iff] at hnone
      have hae : a = e'.1 := heq'.symm
      exact hnone (hae ▸ hka)
  refine ⟨hE, hmem, hnd, ?_⟩
  intro k htomb hk
  rw [List.mem_map] at hk
  obtain ⟨⟨k', mv⟩, hkm, heq⟩ := hk
  dsimp at heq
  subst heq
  rcases (hmem _ _).mp hkm with ⟨hlk, hp⟩ | ⟨hlk, -, -, -⟩
  · rw [htomb] at hlk
    injection hlk with hlk
    rw [← hlk] at hp
    exact Bool.noConfusion hp
  · rw [htomb] at hlk
    cases hlk

/-- C8 witness: a state with a tombstone on key 2, a new key 3 and immutable
keys 1, 2; the split form holds by the theorem. -/
theorem mdict_enumerate_spec_witness :
    MDict.WF (⟨⟨[(1, 10), (2, 20)], []⟩, 1, [(2, none), (3, some 30)], [3], true⟩
        : MDict.State Nat Nat) ∧
      MDict.enumerate (⟨⟨[(1, 10), (2, 20)], []⟩, 1, [(2, none), (3, some 30)], [3], true⟩
          : MDict.State Nat Nat)
        = ([(2, none), (3, some 30)] : List (Nat × Option Nat)).filter (fun e => e.2.isSome)
          ++ (([(1, 10), (2, 20)] : List (Nat × Nat)).filter
              (fun e => (lookupList [(2, none), (3, some 30)] e.1).isNone)).map
                (fun e => (e.1, some e.2)) :=
  ⟨⟨by decide, by decide⟩,
    (mdict_enumerate_spec (⟨⟨[(1, 10), (2, 20)], []⟩, 1, [(2, none), (3, some 30)], [3], true⟩
        : MDict.State Nat Nat) ⟨by decide, by decide⟩).1⟩

/-! ### Claim C4: `contains` vs `get` on shared-keys dictionaries -/

/-- C4, divergence witness: `contains` resolves keys through
`_dict->get(key, sharedKeys)` while `get` uses `_dict->get(key)` (the line
marked `//FIX` in MDict.hh:52).  On a dictionary whose key "foo" is interned
through shared keys, `contains("foo")` is true yet `get("foo")` returns
null, refuting the claimed equivalence; the spec (section 9) states the
intended behavior is to pass shared keys on both paths. -/
theorem mdict_contains_get_divergence :
    MDict.contains (MDict.init (⟨[([102, 111, 111], 1)], [[102, 111, 111]]⟩
        : DictModel (List Nat) Nat)) [102, 111, 111] = true ∧
      (MDict.get (MDict.init (⟨[([102, 111, 111], 1)], [[102, 111, 111]]⟩
          : DictModel (List Nat) Nat)) [102, 111, 111]).1 = none := by
  constructor
  · decide
  · decide

/-! ### Claim C10: `get` is observationally read-only -/

section GetReadonly

variable {K V W : Type} [DecidableEq K] [DecidableEq V]

/-- If two filter predicates agree on all entries keyed `k`, the lookups at
`k` of the filtered, re-tagged lists agree. -/
theorem lookupList_filter_map_congr (l : List (K × V)) (q₁ q₂ : K × V → Bool)
    (g : V → W) (k : K) (hq : ∀ e ∈ l, e.1 = k → q₁ e = q₂ e) :
    lookupList ((l.filter q₁).map (fun e => (e.1, g e.2))) k
      = lookupList ((l.filter q₂).map (fun e => (e.1, g e.2))) k := by
  induction l with
  | nil => rfl
  | cons e rest ih =>
    have hrec := ih (fun x hx hk => hq x (List.mem_cons_of_mem e hx) hk)
    obtain ⟨e1, e2⟩ := e
    by_cases hek : e1 = k
    · have heq := hq (e1, e2) (List.mem_cons_self _ _) hek
      by_cases h1 : q₁ (e1, e2)
      · have h2 : q₂ (e1, e2) = true := by rw [← heq]; exact h1
        rw [List.filter_cons, List.filter_cons, if_pos h1, if_pos h2]
        simp [lookupList, hek]
      · have h2 : ¬ q₂ (e1, e2) = true := by rw [← heq]; exact h1
        rw [List.filter_cons, List.filter_cons, if_neg h1, if_neg h2]
        exact hrec
    · by_cases h1 : q₁ (e1, e2) <;> by_cases h2 : q₂ (e1, e2) <;>
        simp [List.filter_cons, h1, h2, lookupList, hek, hrec]

/-- An unshadowed immutable entry surfaces through the dict loop of
`enumerate` with its value re-tagged as an `MValue`. -/
theorem lookupList_dictPart_of_unshadowed (entries : List (K × V))
    (hnd : (entries.map Prod.fst).Nodup) (m : List (K × Option V)) (k : K) (v : V)
    (hv : lookupList entries k = some v) (hsh : lookupList m k = none) :
    lookupList ((entries.filter (fun e => (lookupList m e.1).isNone)).map
      (fun e => (e.1, some e.2))) k = some (some v) := by
  induction entries with
  | nil => simp [lookupList] at hv
  | cons e rest ih =>
    simp only [List.map_cons, List.nodup_cons] at hnd
    obtain ⟨e1, e2⟩ := e
    by_cases hek : e1 = k
    · subst hek
      have hv2 : e2 = v := by simpa [lookupList] using hv
      subst hv2
      rw [List.filter_cons, if_pos (by simp [hsh])]
      simp [lookupList]
    · simp only [lookupList, if_neg hek] at hv
      have hres := ih hnd.2 hv
      rw [List.filter_cons]
      by_cases hq : (lookupList m e1).isNone
      · rw [if_pos hq]
        simpa [lookupList, hek] using hres
      · rw [if_neg hq]
        exact hres

/-- C10: for a key that `get`'s plain `_dict` lookup resolves and that has
no `_map` entry, `get(key)` materializes the entry - inserting the `MValue`
into `_map` and copying the key into `_newKeys` - yet stays observationally
read-only: the returned value is the immutable one, `count()` and the
mutated flag are unchanged, and `contains` and the per-key view of
`enumerate` are identical before and after the call. -/
theorem mdict_get_readonly (s : MDict.State K V) (k : K) (v : V) (hwf : MDict.WF s)
    (hm : lookupList s.map k = none) (hget : DictModel.getNoSK s.dict k = some v) :
    (MDict.get s k).1 = some (some v) ∧
    (MDict.get s k).2.map = s.map ++ [(k, some v)] ∧
    (MDict.get s k).2.newKeys = s.newKeys ++ [k] ∧
    (MDict.get s k).2.count = s.count ∧
    (MDict.get s k).2.mutated = s.mutated ∧
    (∀ k', MDict.contains (MDict.get s k).2 k' = MDict.contains s k') ∧
    (∀ k', lookupList (MDict.enumerate (MDict.get s k).2) k'
        = lookupList (MDict.enumerate s) k') := by
  obtain ⟨hmapnd, hdictnd⟩ := hwf
  have hgetSK : DictModel.getSK s.dict k = some v := getSK_of_getNoSK hget
  have hentries : lookupList s.dict.entries k = some v := hgetSK
  have hstep : MDict.get s k = (some (some v),
      ⟨s.dict, s.count, s.map ++ [(k, some v)], s.newKeys ++ [k], s.mutated⟩) := by
    rw [MDict.get, hm, hget]
  rw [hstep]
  refine ⟨rfl, rfl, rfl, rfl, rfl, ?_, ?_⟩
  · intro k'
    by_cases hk : k' = k
    · subst hk
      have hl : lookupList (s.map ++ [(k', some v)]) k' = some (some v) := by
        rw [lookupList_append, hm, Option.none_or, lookupList_singleton, if_pos rfl]
      simp [MDict.contains, hl, hm, hgetSK]
    · have hl : lookupList (s.map ++ [(k, some v)]) k' = lookupList s.map k' :=
        lookupList_append_single_ne _ _ (fun he => hk he.symm)
      simp only [MDict.contains, hl]
  · intro k'
    rw [enumerate_eq_filter, enumerate_eq_filter]
    show lookupList ((s.map ++ [(k, some v)]).filter (fun e => e.2.isSome)
        ++ (s.dict.entries.filter
            (fun e => (lookupList (s.map ++ [(k, some v)]) e.1).isNone)).map
          (fun e => (e.1, some e.2))) k'
      = lookupList (s.map.filter (fun e => e.2.isSome)
          ++ (s.dict.entries.filter (fun e => (lookupList s.map e.1).isNone)).map
            (fun e => (e.1, some e.2))) k'
    have hfsplit : (s.map ++ [(k, some v)]).filter (fun e => e.2.isSome)
        = s.map.filter (fun e => e.2.isSome) ++ [(k, some v)] := by
      rw [List.filter_append]
      rfl
    rw [hfsplit]
    by_cases hk : k' = k
    · subst hk
      have h1 : lookupList (s.map.filter (fun e => e.2.isSome)) k' = none :=
        lookupList_filter_eq_none _ _ _ hm
      have h2 : lookupList (s.map.filter (fun e => e.2.isSome) ++ [(k', some v)]) k'
          = some (some v) := by
        rw [lookupList_append, h1, Option.none_or, lookupList_singleton, if_pos rfl]
      have h3 : lookupList ((s.dict.entries.filter
          (fun e => (lookupList s.map e.1).isNone)).map (fun e => (e.1, some e.2))) k'
          = some (some v) :=
        lookupList_dictPart_of_unshadowed _ hdictnd _ _ _ hentries hm
      rw [lookupList_append, h2, Option.or_some, lookupList_append, h1, Option.none_or,
        h3]
    · have h2 : lookupList (s.map.filter (fun e => e.2.isSome) ++ [(k, some v)]) k'
          = lookupList (s.map.filter (fun e => e.2.isSome)) k' :=
        lookupList_append_single_ne _ _ (fun he => hk he.symm)
      have h3 : lookupList ((s.dict.entries.filter
          (fun e => (lookupList (s.map ++ [(k, some v)]) e.1).isNone)).map
            (fun e => (e.1, some e.2))) k'
          = lookupList ((s.dict.entries.filter
            (fun e => (lookupList s.map e.1).isNone)).map (fun e => (e.1, some e.2))) k' := by
        apply lookupList_filter_map_congr
        intro e he hek
        rw [hek, lookupList_append_single_ne _ _ (fun heq => hk heq.symm)]
      rw [lookupList_append, h2, h3, lookupList_append]

end GetReadonly

/-- C10 witness: `get 1` on `init {1 ↦ 5}` materializes the entry while all
observable views stay put; instantiated at the concrete keys 1 and 2. -/
theorem mdict_get_readonly_witness :
    (MDict.WF (MDict.init (⟨[(1, 5)], []⟩ : DictModel Nat Nat))
      ∧ lookupList (MDict.init (⟨[(1, 5)], []⟩ : DictModel Nat Nat)).map 1 = none
      ∧ DictModel.getNoSK (⟨[(1, 5)], []⟩ : DictModel Nat Nat) 1 = some 5) ∧
      ((MDict.get (MDict.init (⟨[(1, 5)], []⟩ : DictModel Nat Nat)) 1).1 = some (some 5)
        ∧ (MDict.get (MDict.init (⟨[(1, 5)], []⟩ : DictModel Nat Nat)) 1).2.count
            = (MDict.init (⟨[(1, 5)], []⟩ : DictModel Nat Nat)).count) :=
  ⟨⟨⟨by decide, by decide⟩, by decide, by decide⟩,
    (mdict_get_readonly (MDict.init (⟨[(1, 5)], []⟩ : DictModel Nat Nat)) 1 5
        ⟨by decide, by decide⟩ (by decide) (by decide)).1,
    (mdict_get_readonly (MDict.init (⟨[(1, 5)], []⟩ : DictModel Nat Nat)) 1 5
        ⟨by decide, by decide⟩ (by decide) (by decide)).2.2.2.1⟩

end Fleece
